import Mathlib

/-!
Shallow embedding of the 3I/ATLAS trajectory scripts
(`generate_trajectory.py`, `update_trajectory.py`, and the artifact backend
`generate_atlas_trajectory.py`) together with proofs of the specification
claims about them.

Strings are modelled as `List Char`; Python floats are modelled as exact
rationals `ℚ` (the decimal grammar of the data is represented exactly);
the real-valued orbital mechanics is modelled over `ℝ`.
-/

set_option maxHeartbeats 1600000

namespace TrajSpec

/-! ## Python string primitives -/

/-- Python's default whitespace characters (as used by `str.strip`,
`str.split()` and the regex class `\s`). -/
def pyIsSpace (c : Char) : Bool :=
  c == ' ' || c == '\t' || c == '\n' || c == '\r' || c == '\x0b' || c == '\x0c'

/-- Remove trailing whitespace (the right half of Python `str.strip()`). -/
def rstrip (l : List Char) : List Char :=
  l.foldr (fun c acc => if acc.isEmpty && pyIsSpace c then [] else c :: acc) []

/-- Python `str.strip()`. -/
def pyStrip (l : List Char) : List Char := rstrip (l.dropWhile pyIsSpace)

/-- Split at every character satisfying `p`, keeping empty chunks
(the shape of Python `str.split(sep)` for a one-character separator). -/
def splitOnPred (p : Char → Bool) : List Char → List (List Char)
  | [] => [[]]
  | c :: cs =>
    if p c then [] :: splitOnPred p cs
    else
      match splitOnPred p cs with
      | [] => [[c]]
      | l :: ls => (c :: l) :: ls

/-- Python `str.split(sep)` for a single-character separator. -/
def splitOnChar (sep : Char) : List Char → List (List Char) :=
  splitOnPred (fun c => c == sep)

/-- Python `str.split()` with no argument: whitespace-run tokenization,
empty tokens dropped. -/
def pySplitWs (l : List Char) : List (List Char) :=
  (splitOnPred pyIsSpace l).filter (fun t => !t.isEmpty)

/-- Join chunks with a separator character (inverse of `splitOnChar`). -/
def joinWith (sep : Char) : List (List Char) → List Char
  | [] => []
  | [l] => l
  | l :: ls => l ++ sep :: joinWith sep ls

/-- Whether `pat` occurs as a contiguous substring (Python `pat in s`). -/
def hasSubstr (pat : List Char) : List Char → Bool
  | [] => pat.isPrefixOf []
  | c :: cs => pat.isPrefixOf (c :: cs) || hasSubstr pat cs

/-- Fuel-driven worker for `replaceAll`; the fuel is an upper bound on the
input length (each step consumes at least one character), so the fuel-0 case
is reached only at the empty list. -/
def replaceAllF (pat sub : List Char) : ℕ → List Char → List Char
  | 0, l => l
  | _ + 1, [] => []
  | f + 1, c :: cs =>
    if !pat.isEmpty && pat.isPrefixOf (c :: cs) then
      sub ++ replaceAllF pat sub f ((c :: cs).drop pat.length)
    else
      c :: replaceAllF pat sub f cs

/-- Python `str.replace(pat, sub)`: replace every occurrence, left to right,
non-overlapping. -/
def replaceAll (pat sub : List Char) (l : List Char) : List Char :=
  replaceAllF pat sub l.length l

/-- Fuel-driven worker for `splitSub` (same fuel convention as
`replaceAllF`). -/
def splitSubF (pat : List Char) : ℕ → List Char → List (List Char)
  | 0, l => [l]
  | _ + 1, [] => [[]]
  | f + 1, c :: cs =>
    if !pat.isEmpty && pat.isPrefixOf (c :: cs) then
      [] :: splitSubF pat f ((c :: cs).drop pat.length)
    else
      match splitSubF pat f cs with
      | [] => [[c]]
      | l :: ls => (c :: l) :: ls

/-- Python `str.split(pat)` for a multi-character separator. -/
def splitSub (pat : List Char) (l : List Char) : List (List Char) :=
  splitSubF pat l.length l

/-- Split at the first occurrence of `pat`, returning the text before the
occurrence and the text after it (models the lazy regex `(.*?)pat`). -/
def splitFirstSub (pat : List Char) : List Char → Option (List Char × List Char)
  | [] => if pat.isEmpty then some ([], []) else none
  | c :: cs =>
    if pat.isPrefixOf (c :: cs) then some ([], (c :: cs).drop pat.length)
    else
      match splitFirstSub pat cs with
      | some (a, b) => some (c :: a, b)
      | none => none

/-! ## Numeric literals: Python `float()` and the ephemeris number regex,
with values taken exactly in `ℚ`. -/

def isDig (c : Char) : Bool := '0' ≤ c && c ≤ '9'

def digVal (c : Char) : ℕ := c.toNat - '0'.toNat

def natOfDigits (l : List Char) : ℕ := l.foldl (fun a c => 10 * a + digVal c) 0

/-- Exact value of a decimal literal from its pieces: sign, integer digits,
fraction digits, exponent sign and exponent digits (`ed = []` means no
exponent part, i.e. exponent 0).  The value
`±(intd.fracd) × 10^(±ed)` is assembled as a single normalized rational. -/
def numValue (neg : Bool) (intd fracd : List Char) (eneg : Bool) (ed : List Char) : ℚ :=
  let mantNum : ℤ := (natOfDigits intd * 10 ^ fracd.length + natOfDigits fracd : ℕ)
  let signedNum : ℤ := if neg then -mantNum else mantNum
  let ex := natOfDigits ed
  if eneg then mkRat signedNum (10 ^ (fracd.length + ex))
  else mkRat (signedNum * (10 : ℤ) ^ ex) (10 ^ fracd.length)

/-- Match the optional exponent `(?:[eE][-+]?[0-9]+)?` at the start of the
input; returns (exponent is negative, exponent digits), with `[]` digits when
the exponent part is absent (which is also the backtracking outcome when `e`
is not followed by digits). -/
def matchExp : List Char → Bool × List Char
  | [] => (false, [])
  | c :: rest =>
    if c == 'e' || c == 'E' then
      match rest with
      | '+' :: r2 =>
        let ds := r2.takeWhile isDig
        if ds.isEmpty then (false, []) else (false, ds)
      | '-' :: r2 =>
        let ds := r2.takeWhile isDig
        if ds.isEmpty then (true, []) else (true, ds)
      | r2 =>
        let ds := r2.takeWhile isDig
        if ds.isEmpty then (false, []) else (false, ds)
    else (false, [])

/-- Match the number regex `[-+]?[0-9]*\.?[0-9]+(?:[eE][-+]?[0-9]+)?` at the
start of `s` (the capture group used by `parse_horizons_vectors`); returns the
exact value of the matched literal. The greedy/backtracking behaviour of the
regex is reproduced: a trailing `.` without following digits is not consumed. -/
def matchNumber (s : List Char) : Option ℚ :=
  let sgn : Bool × List Char :=
    match s with
    | '+' :: t => (false, t)
    | '-' :: t => (true, t)
    | t => (false, t)
  let neg := sgn.1
  let s1 := sgn.2
  let ds1 := s1.takeWhile isDig
  let r1 := s1.dropWhile isDig
  match r1 with
  | '.' :: r2 =>
    let ds2 := r2.takeWhile isDig
    if !ds2.isEmpty then
      let ex := matchExp (r2.dropWhile isDig)
      some (numValue neg ds1 ds2 ex.1 ex.2)
    else if !ds1.isEmpty then some (numValue neg ds1 [] false [])
    else none
  | r1' =>
    if !ds1.isEmpty then
      let ex := matchExp r1'
      some (numValue neg ds1 [] ex.1 ex.2)
    else none

/-- Mantissa-and-exponent tail of `pyFloat`: given the sign, integer digits
and fraction digits already read, require either side of the point to be
nonempty, then an optional well-formed exponent, then end of input. -/
def pyFloatFinish (neg : Bool) (ds1 fracd rest : List Char) : Option ℚ :=
  if ds1.isEmpty && fracd.isEmpty then none
  else
    match rest with
    | [] => some (numValue neg ds1 fracd false [])
    | e :: r2 =>
      if e == 'e' || e == 'E' then
        let esgn : Bool × List Char :=
          match r2 with
          | '+' :: t => (false, t)
          | '-' :: t => (true, t)
          | t => (false, t)
        let eds := esgn.2.takeWhile isDig
        if eds.isEmpty then none
        else if (esgn.2.dropWhile isDig).isEmpty then
          some (numValue neg ds1 fracd esgn.1 eds)
        else none
      else none

/-- Python `float(s)` for the decimal grammar of this data: optional sign,
`digits [. digits] | . digits`, optional exponent, surrounding whitespace
allowed, whole string must be consumed. `none` models the raised
`ValueError`. (The `inf`/`nan`/underscore literals accepted by Python never
occur in this data and are not modelled.) -/
def pyFloat (s0 : List Char) : Option ℚ :=
  let sgn : Bool × List Char :=
    match pyStrip s0 with
    | '+' :: t => (false, t)
    | '-' :: t => (true, t)
    | t => (false, t)
  let neg := sgn.1
  let s1 := sgn.2
  let ds1 := s1.takeWhile isDig
  match s1.dropWhile isDig with
  | '.' :: r2 => pyFloatFinish neg ds1 (r2.takeWhile isDig) (r2.dropWhile isDig)
  | r1' => pyFloatFinish neg ds1 [] r1'

/-! ## The labeled-block parser `generate_trajectory.parse_horizons_vectors` -/

/-- `horizons_to_threejs`: Three.js `[x, y, z] = Horizons [x, z, -y]`. -/
def horizonsToThreejs (x y z : ℚ) : List ℚ := [x, z, -y]

/-- One parsed record of `parse_horizons_vectors` (position/velocity already
converted to Three.js axes, exactly as the code stores them). -/
structure HorizonsPoint where
  jd : ℚ
  date : List Char
  position : List ℚ
  velocity : List ℚ
deriving DecidableEq, Repr

/-- The tail of `l` after its last `'\n'`; `none` when `l` has no newline. -/
def afterLastNL (l : List Char) : Option (List Char) :=
  if l.contains '\n' then some ((l.reverse.takeWhile (fun c => c != '\n')).reverse)
  else none

/-- Try to match `\$\$SOE\s*\n(.*?)\$\$EOE` (DOTALL) with the `$$SOE`
occurrence anchored at the start of `s`; return the captured group.
Greedy `\s*` with backtracking means the group starts after the last newline
of the whitespace run following `$$SOE` (no `$$EOE` can begin inside the
whitespace run, so further backtracking cannot succeed when this fails). -/
def soeMatchHere (s : List Char) : Option (List Char) :=
  if ("$$SOE".data).isPrefixOf s then
    let after := s.drop 5
    let ws := after.takeWhile pyIsSpace
    let rest := after.dropWhile pyIsSpace
    match afterLastNL ws with
    | none => none
    | some tailWs =>
      match splitFirstSub ("$$EOE".data) (tailWs ++ rest) with
      | some (content, _) => some content
      | none => none
  else none

/-- Leftmost match of the data-section regex
(`re.search(r'\$\$SOE\s*\n(.*?)\$\$EOE', text, re.DOTALL)`). -/
def findSOE : List Char → Option (List Char)
  | [] => soeMatchHere []
  | c :: cs =>
    match soeMatchHere (c :: cs) with
    | some content => some content
    | none => findSOE cs

/-- The first statements of the date-line try-block: split on `=`, parse the
Julian date with `float` (whose `ValueError` is the only caught exception on
this path, modelled by `none`), and clean up the calendar-date text. -/
def parseHeaderLine (line : List Char) : Option (ℚ × List Char) :=
  let parts := splitOnChar '=' line
  match pyFloat (pyStrip (parts.getD 0 [])) with
  | none => none
  | some jd =>
    let d1 := pyStrip (parts.getD 1 [])
    some (jd, pyStrip (replaceAll (" TDB".data) [] (replaceAll ("A.D. ".data) [] d1)))

/-- `re.search(r'LAB\s*=\s*(number)', s)`: try the pattern anchored at the
start of `s`. -/
def matchLabelNum (lab : List Char) (s : List Char) : Option ℚ :=
  if lab.isPrefixOf s then
    match (s.drop lab.length).dropWhile pyIsSpace with
    | '=' :: s2 => matchNumber (s2.dropWhile pyIsSpace)
    | _ => none
  else none

/-- `re.search` for the labelled-number pattern: leftmost position where the
whole pattern matches. -/
def searchLabelNum (lab : List Char) : List Char → Option ℚ
  | [] => matchLabelNum lab []
  | c :: cs =>
    match matchLabelNum lab (c :: cs) with
    | some v => some v
    | none => searchLabelNum lab cs

/-- The `while i < len(lines)` loop of `parse_horizons_vectors`, phrased over
the remaining suffix of lines.  The index arithmetic of the original
(increments of 1 inside the branches, `continue` skipping the trailing
`i += 1`, `break` on running out of lines) is reproduced by recursing on the
appropriate suffix. -/
def phvLoop : List (List Char) → List HorizonsPoint
  | [] => []
  | l1 :: rest =>
    let line := pyStrip l1
    if line.isEmpty then phvLoop rest
    else if line.contains '=' && hasSubstr ("A.D.".data) line then
      match parseHeaderLine line with
      | none => phvLoop rest
      | some (jd, dateStr) =>
        match rest with
        | [] => []
        | l2 :: rest2 =>
          let posLine := pyStrip l2
          match searchLabelNum ['X'] posLine, searchLabelNum ['Y'] posLine,
                searchLabelNum ['Z'] posLine with
          | some x, some y, some z =>
            (match rest2 with
             | [] => []
             | l3 :: rest3 =>
               let velLine := pyStrip l3
               match searchLabelNum ("VX".data) velLine, searchLabelNum ("VY".data) velLine,
                     searchLabelNum ("VZ".data) velLine with
               | some vx, some vy, some vz =>
                 { jd := jd, date := dateStr,
                   position := horizonsToThreejs x y z,
                   velocity := horizonsToThreejs vx vy vz } :: phvLoop rest3
               | _, _, _ => phvLoop rest3)
          | _, _, _ => phvLoop rest2
    else phvLoop rest

/-- The error raised by `parse_horizons_vectors` when the `$$SOE` data
section is absent (`ValueError("Could not find data section …")`). -/
inductive ParseErr
  | missingDataSection
deriving DecidableEq, Repr

/-- `generate_trajectory.parse_horizons_vectors`. -/
def parseHorizonsVectors (text : List Char) : Except ParseErr (List HorizonsPoint) :=
  match findSOE text with
  | none => .error .missingDataSection
  | some content => .ok (phvLoop (splitOnChar '\n' (pyStrip content)))

/-! ## The CSV parser `HorizonsAPIClient._parse_vector_data` -/

/-- One parsed record of `_parse_vector_data` (raw Horizons axes, no
Three.js conversion). -/
structure CsvPoint where
  jd : ℚ
  date : List Char
  pos : ℚ × ℚ × ℚ
  vel : ℚ × ℚ × ℚ
deriving DecidableEq, Repr

/-- The per-row body of `_parse_vector_data` for an in-data line that is
nonempty and contains a comma: split on commas, strip the fields, skip rows
with fewer than 8 fields, and parse the numeric fields with `float` (any
exception skips the row, modelled by `none`). -/
def parseCsvRow (line : List Char) : Option CsvPoint :=
  let parts := (splitOnChar ',' line).map pyStrip
  if parts.length < 8 then none
  else
    match pyFloat (parts.getD 0 []), pyFloat (parts.getD 2 []), pyFloat (parts.getD 3 []),
          pyFloat (parts.getD 4 []), pyFloat (parts.getD 5 []), pyFloat (parts.getD 6 []),
          pyFloat (parts.getD 7 []) with
    | some jd, some x, some y, some z, some vx, some vy, some vz =>
      let dateField := parts.getD 1 []
      let dateIso :=
        if hasSubstr ("A.D.".data) dateField then
          pyStrip ((splitSub ("A.D.".data) dateField).getLastD [])
        else dateField
      some { jd := jd, date := dateIso, pos := (x, y, z), vel := (vx, vy, vz) }
    | _, _, _, _, _, _, _ => none

/-- The line loop of `_parse_vector_data` with its `in_data` flag
(`$$SOE` starts the data section, `$$EOE` breaks, other lines are processed
only inside the section). -/
def vdLoop : List (List Char) → Bool → List CsvPoint
  | [], _ => []
  | raw :: rest, inData =>
    let line := pyStrip raw
    if ("$$SOE".data).isPrefixOf line then vdLoop rest true
    else if ("$$EOE".data).isPrefixOf line then []
    else if !inData || line.isEmpty || !(line.contains ',') then vdLoop rest inData
    else
      match parseCsvRow line with
      | some v => v :: vdLoop rest inData
      | none => vdLoop rest inData

/-- `HorizonsAPIClient._parse_vector_data`.  Note: it never raises; with no
`$$SOE` marker it simply returns the empty list. -/
def parseVectorData (text : List Char) : List CsvPoint :=
  vdLoop (splitOnChar '\n' text) false

/-! ## Stored trajectory points and `update_trajectory.py` operations -/

/-- A stored trajectory point as handled by `update_trajectory.py` and
`find_position_at_date`.  Only the fields those functions inspect are modelled
(`jd` via `point.get('jd', 0)`, `date` via `point.get('date', '')` /
`point['date']`, `position` via `point['position']`); `none` models an absent
key for the two optional lookups.  `position` is always present in every
point this system constructs.  `tag` stands for the remaining JSON payload,
carried through opaquely. -/
structure TrajPoint where
  jd : Option ℚ
  date : Option (List Char)
  position : List ℚ
  tag : ℕ
deriving DecidableEq, Repr

/-- Sort key `point.get('jd', 0)` used by `merge_trajectory_data`. -/
def jdKey (p : TrajPoint) : ℚ := p.jd.getD 0

/-- `point.get('date', '').split()[0]` in `merge_trajectory_data`; `none`
models the uncaught `IndexError` when the date is missing or has no
whitespace token (`''.split()[0]`). -/
def dateKey (p : TrajPoint) : Option (List Char) :=
  (pySplitWs (p.date.getD [])).head?

/-- Python-dict insertion: overwriting an existing key keeps the key's
original position and replaces the value; a new key is appended at the end. -/
def upsert (k : List Char) (p : TrajPoint) :
    List (List Char × TrajPoint) → List (List Char × TrajPoint)
  | [] => [(k, p)]
  | (k', p') :: rest => if k' = k then (k', p) :: rest else (k', p') :: upsert k p rest

/-- The `for point in …: merged[date_key] = point` loops (with the
`if date_key:` guard); `.error` models the uncaught `IndexError` from
`dateKey`. -/
def insertAll : List TrajPoint → List (List Char × TrajPoint) →
    Except Unit (List (List Char × TrajPoint))
  | [], d => .ok d
  | p :: rest, d =>
    match dateKey p with
    | none => .error ()
    | some k => if k.isEmpty then insertAll rest d else insertAll rest (upsert k p d)

/-- Stable insertion of one element into a jd-sorted list: it goes after
every element with a key `≤` its own. -/
def insJd (x : TrajPoint) : List TrajPoint → List TrajPoint
  | [] => [x]
  | y :: rest => if jdKey x ≤ jdKey y then x :: y :: rest else y :: insJd x rest

/-- `result.sort(key=lambda x: x.get('jd', 0))`: Python's sort is a stable
ascending sort, and the stable ascending reordering of a list is unique, so
stable insertion sort is the same function as Timsort. -/
def sortByJd (l : List TrajPoint) : List TrajPoint := l.foldr insJd []

/-- `update_trajectory.merge_trajectory_data`. -/
def mergeTrajectoryData (existing freshNew : List TrajPoint) : Except Unit (List TrajPoint) :=
  if existing.isEmpty then .ok freshNew
  else if freshNew.isEmpty then .ok existing
  else
    match insertAll existing [] with
    | .error e => .error e
    | .ok d1 =>
      match insertAll freshNew d1 with
      | .error e => .error e
      | .ok d2 => .ok (sortByJd (d2.map Prod.snd))

/-- Ascending-by-jd check (the sortedness property claimed for merge
results). -/
def isSortedByJd : List TrajPoint → Bool
  | [] => true
  | [_] => true
  | x :: y :: rest => decide (jdKey x ≤ jdKey y) && isSortedByJd (y :: rest)

/-! ## Calendar dates: `datetime.fromisoformat` and day arithmetic -/

/-- Days in a month of the proleptic Gregorian calendar (with leap years),
as validated by `datetime`. -/
def daysInMonth (y m : ℤ) : ℤ :=
  if m = 2 then (if y % 4 = 0 ∧ (y % 100 ≠ 0 ∨ y % 400 = 0) then 29 else 28)
  else if m = 4 ∨ m = 6 ∨ m = 9 ∨ m = 11 then 30 else 31

/-- Day number of a civil date (the standard days-from-civil algorithm, as
used by `datetime.toordinal` up to a constant offset); valid for `y ≥ 1`,
`1 ≤ m ≤ 12`. -/
def daysFromCivil (y m d : ℤ) : ℤ :=
  let y' := if m ≤ 2 then y - 1 else y
  let era := y' / 400
  let yoe := y' - era * 400
  let mp := (m + 9) % 12
  let doy := (153 * mp + 2) / 5 + d - 1
  let doe := yoe * 365 + yoe / 4 - yoe / 100 + doy
  era * 146097 + doe - 719468

/-- `datetime.fromisoformat` restricted to the hyphenated calendar-date
grammar `YYYY-MM-DD` that this system's date strings use after
`.split()[0]`; the result is the date's day number (the represented instant
is that day's midnight).  `none` models the raised `ValueError`. -/
def pyFromIso (s : List Char) : Option ℤ :=
  match s with
  | [y1, y2, y3, y4, '-', m1, m2, '-', d1, d2] =>
    if isDig y1 && isDig y2 && isDig y3 && isDig y4 && isDig m1 && isDig m2 &&
        isDig d1 && isDig d2 then
      let y : ℤ := (natOfDigits [y1, y2, y3, y4] : ℕ)
      let m : ℤ := (natOfDigits [m1, m2] : ℕ)
      let d : ℤ := (natOfDigits [d1, d2] : ℕ)
      if 1 ≤ y ∧ 1 ≤ m ∧ m ≤ 12 ∧ 1 ≤ d ∧ d ≤ daysInMonth y m then
        some (daysFromCivil y m d)
      else none
    else none
  | _ => none

/-! ## `generate_trajectory.find_position_at_date` -/

/-- `abs((point_dt - target_dt).total_seconds())` for one point, together
with the `try`-protected date extraction `point['date'].split()[0]`;
`none` models any caught exception (missing date, empty split, bad format). -/
def dateDiffSec (td : ℤ) (p : TrajPoint) : Option ℤ :=
  match p.date with
  | none => none
  | some s =>
    match (pySplitWs s).head? with
    | none => none
    | some tok => (pyFromIso tok).map (fun pd => |pd - td| * 86400)

/-- The scan loop of `find_position_at_date`: state `none` is
`best_match = None, min_diff = inf`; a candidate replaces the state only
when its difference is strictly smaller. -/
def fpLoop (td : ℤ) : List TrajPoint → Option (ℤ × List ℚ) → Option (ℤ × List ℚ)
  | [], st => st
  | p :: rest, st =>
    match dateDiffSec td p with
    | none => fpLoop td rest st
    | some d =>
      match st with
      | none => fpLoop td rest (some (d, p.position))
      | some (m, pos) =>
        if d < m then fpLoop td rest (some (d, p.position)) else fpLoop td rest (some (m, pos))

/-- `generate_trajectory.find_position_at_date`; `.error` models the
uncaught `ValueError` when the target date itself does not parse. -/
def findPositionAtDate (trajectory : List TrajPoint) (target : List Char) :
    Except Unit (Option (List ℚ)) :=
  match pyFromIso target with
  | none => .error ()
  | some td => .ok ((fpLoop td trajectory none).map Prod.snd)

/-- The parse-success candidates of the scan, in scan order, as
(seconds-difference, position) pairs. -/
def fpCands (td : ℤ) (l : List TrajPoint) : List (ℤ × List ℚ) :=
  l.filterMap (fun p => (dateDiffSec td p).map (fun d => (d, p.position)))

/-- `fpLoop` restricted to the candidate list. -/
def pickFold : Option (ℤ × List ℚ) → List (ℤ × List ℚ) → Option (ℤ × List ℚ)
  | st, [] => st
  | st, c :: cs =>
    match st with
    | none => pickFold (some c) cs
    | some (m, pos) => if c.1 < m then pickFold (some c) cs else pickFold (some (m, pos)) cs

/-! ## `update_trajectory.prune_old_data` -/

/-- The `try`-protected date parse of `prune_old_data`
(`point['date'].split()[0]` then `fromisoformat`); `none` models any caught
exception. -/
def pruneKey (p : TrajPoint) : Option ℤ :=
  p.date.bind (fun s => ((pySplitWs s).head?).bind pyFromIso)

/-- `update_trajectory.prune_old_data`.  `cutoff` is the cutoff instant in
seconds (a point's instant is its date's midnight, `pd * 86400`);
`historical_cutoff = cutoff - timedelta(days=30)` and a point is kept when
its instant is `≥` that, or when its date fails to parse. -/
def pruneOldData : List TrajPoint → ℚ → List TrajPoint
  | [], _ => []
  | p :: rest, cutoff =>
    match pruneKey p with
    | none => p :: pruneOldData rest cutoff
    | some pd =>
      if ((pd * 86400 : ℤ) : ℚ) ≥ cutoff - 30 * 86400 then p :: pruneOldData rest cutoff
      else pruneOldData rest cutoff

/-- The claim's drop condition: the date parses and its instant is strictly
earlier than cutoff minus 30 days. -/
def dropsPoint (cutoff : ℚ) (p : TrajPoint) : Bool :=
  match pruneKey p with
  | none => false
  | some pd => decide (((pd * 86400 : ℤ) : ℚ) < cutoff - 30 * 86400)

/-! ## The two fallback hyperbolic propagators -/

noncomputable section

/-- One Newton step for the hyperbolic Kepler equation
`F ↦ F − (e·sinh F − F − M)/(e·cosh F − 1)`, shared verbatim by both
implementations. -/
def newtonStep (e M F : ℝ) : ℝ :=
  F - (e * Real.sinh F - F - M) / (e * Real.cosh F - 1)

/-- `k` Newton steps from the initial guess `F0`. -/
def newtonIterFrom (e M F0 : ℝ) : ℕ → ℝ
  | 0 => F0
  | k + 1 => newtonStep e M (newtonIterFrom e M F0 k)

/-- Euclidean magnitude of an orbital-plane (2-D) vector. -/
def mag2 (v : ℝ × ℝ) : ℝ := Real.sqrt (v.1 ^ 2 + v.2 ^ 2)

end

namespace Art

/-- `OrbitalMechanicsCalculator.MU_SUN = 2.959122083e-4` (AU³/day²), exact. -/
def MU_SUN : ℚ := 2959122083 / 10 ^ 13

noncomputable section

/-- `a = q / (1 - e)` (negative for a hyperbolic orbit). -/
def a (e q : ℝ) : ℝ := q / (1 - e)

/-- `n = math.sqrt(MU_SUN / abs(a**3))`. -/
def n (e q : ℝ) : ℝ := Real.sqrt ((MU_SUN : ℝ) / |a e q ^ 3|)

/-- Mean anomaly `M = n * t` with `t` the elapsed days since perihelion. -/
def M (e q t : ℝ) : ℝ := n e q * t

/-- `calculate_position`'s Kepler solve: `F = M` then 10 Newton steps. -/
def F (e q t : ℝ) : ℝ := newtonIterFrom e (M e q t) (M e q t) 10

/-- True anomaly `ν = 2·atan(√((e+1)/(e−1))·tanh(F/2))`. -/
def nu (e q t : ℝ) : ℝ :=
  2 * Real.arctan (Real.sqrt ((e + 1) / (e - 1)) * Real.tanh (F e q t / 2))

/-- Radius `r = a·(1 − e·cosh F)`. -/
def r (e q t : ℝ) : ℝ := a e q * (1 - e * Real.cosh (F e q t))

/-- The reported distance from the sun, `'distance_au': abs(r)`. -/
def distanceAU (e q t : ℝ) : ℝ := |r e q t|

/-- Speed `v = math.sqrt(MU_SUN * (2/abs(r) - 1/a))`. -/
def vmag (e q t : ℝ) : ℝ := Real.sqrt ((MU_SUN : ℝ) * (2 / |r e q t| - 1 / a e q))

/-- `calculate_position`'s orbital-plane velocity: direction
`v_angle = ν + π/2`, components `(v·cos v_angle, v·sin v_angle)`. -/
def velPerp (nuv v : ℝ) : ℝ × ℝ :=
  (v * Real.cos (nuv + Real.pi / 2), v * Real.sin (nuv + Real.pi / 2))

/-- The orbital-plane velocity produced by the `calculate_position`
pipeline at elements `(e, q)` and elapsed time `t`. -/
def orbVel (e q t : ℝ) : ℝ × ℝ := velPerp (nu e q t) (vmag e q t)

end

end Art

namespace Gen

/-- `mu = 0.000295912208286` (AU³/day²) in
`generate_trajectory.kepler_fallback_trajectory`, exact. -/
def mu : ℚ := 295912208286 / 10 ^ 15

noncomputable section

/-- `a = -q / (e - 1)` (negative semimajor axis). -/
def a (e q : ℝ) : ℝ := -q / (e - 1)

/-- `n = np.sqrt(mu / abs(a)**3)`. -/
def n (e q : ℝ) : ℝ := Real.sqrt ((mu : ℝ) / |a e q| ^ 3)

/-- Mean anomaly `M = n * dt_days`. -/
def M (e q t : ℝ) : ℝ := n e q * t

/-- `kepler_fallback_trajectory`'s Kepler solve: the asymptotic logarithmic
form when `|M| > 50`, otherwise a Newton root search from the seed
`sign(M)·log(|M|+1)` (the `scipy.optimize.newton` call, modelled as its
`maxiter=20` Newton-Raphson iterations from that seed). -/
def F (e q t : ℝ) : ℝ :=
  if 50 < |M e q t| then
    Real.sign (M e q t) *
      (Real.log (2 * |M e q t| / e) + Real.log (1 + Real.sqrt (1 + (2 * |M e q t| / e) ^ 2)))
  else
    newtonIterFrom e (M e q t) (Real.sign (M e q t) * Real.log (|M e q t| + 1)) 20

/-- True anomaly, same formula as the other implementation. -/
def nu (e q t : ℝ) : ℝ :=
  2 * Real.arctan (Real.sqrt ((e + 1) / (e - 1)) * Real.tanh (F e q t / 2))

/-- Radius `r = a * (1 - e*np.cosh(F))`. -/
def r (e q t : ℝ) : ℝ := a e q * (1 - e * Real.cosh (F e q t))

/-- `v_mag = np.sqrt(mu * (2.0/abs(r) - 1.0/a)) if r != 0 else 0`. -/
def vmag (e q t : ℝ) : ℝ :=
  if r e q t ≠ 0 then Real.sqrt ((mu : ℝ) * (2 / |r e q t| - 1 / a e q)) else 0

/-- `kepler_fallback_trajectory`'s orbital-plane velocity:
`(−v·sin ν, v·(e+cos ν))`, normalized when its norm is positive and rescaled
to `v`. -/
def velVis (e nuv v : ℝ) : ℝ × ℝ :=
  let vx := -v * Real.sin nuv
  let vy := v * (e + Real.cos nuv)
  let vn := Real.sqrt (vx ^ 2 + vy ^ 2)
  if 0 < vn then (vx / vn * v, vy / vn * v) else (vx, vy)

/-- The orbital-plane velocity produced by the `kepler_fallback_trajectory`
pipeline at elements `(e, q)` and elapsed time `t`. -/
def orbVel (e q t : ℝ) : ℝ × ℝ := velVis e (nu e q t) (vmag e q t)

end

end Gen

/-! ## Concrete fixtures used by witnesses and counterexamples -/

/-- The labeled-block input of the spec's parser test vector. -/
def c2text : List Char :=
  ("$$SOE\n2460857.500000000 = A.D. 2025-Jul-01 00:00:00.0000 TDB\n" ++
   " X = 1.6E-01 Y =-1.0E+00 Z = 5.8E-05\n" ++
   " VX= 1.6E-02 VY= 2.6E-03 VZ= 3.6E-07\n$$EOE").data

/-- The record `parse_horizons_vectors` actually produces from `c2text`. -/
def c2rec : HorizonsPoint :=
  { jd := mkRat 4921715 2
    date := "2025-Jul-01 00:00:00.0000".data
    position := [mkRat 4 25, mkRat 29 500000, 1]
    velocity := [mkRat 2 125, mkRat 9 25000000, mkRat (-13) 5000] }

/-- A response body in which the `$$SOE` start marker never occurs. -/
def noMarkerText : List Char := ("API result without any data section markers".data)

/-- A merge input point with the smaller Julian date. -/
def mergeLo : TrajPoint :=
  { jd := some 1, date := some ("2025-07-01".data), position := [1], tag := 0 }

/-- A merge input point with the larger Julian date. -/
def mergeHi : TrajPoint :=
  { jd := some 2, date := some ("2025-07-02".data), position := [2], tag := 1 }

/-- A well-formed CSV data row for the in-data loop: its stripped form is not
a marker line, is nonempty, contains a comma, and `parseCsvRow` accepts it
with record `v` (at least 8 comma-separated fields, all numeric ones
parseable). -/
def wffRow (r : List Char) (v : CsvPoint) : Prop :=
  ("$$SOE".data).isPrefixOf (pyStrip r) = false ∧
    ("$$EOE".data).isPrefixOf (pyStrip r) = false ∧
    (pyStrip r).isEmpty = false ∧
    (pyStrip r).contains ',' = true ∧
    parseCsvRow (pyStrip r) = some v

/-- A malformed CSV data row in the claim's sense: not a marker line,
nonempty, contains a comma, but has only 7 comma-separated fields. -/
def badRow (m : List Char) : Prop :=
  ("$$SOE".data).isPrefixOf (pyStrip m) = false ∧
    ("$$EOE".data).isPrefixOf (pyStrip m) = false ∧
    (pyStrip m).isEmpty = false ∧
    (pyStrip m).contains ',' = true ∧
    (splitOnChar ',' (pyStrip m)).length = 7

/-- Concrete well-formed CSV rows and their records (witness fixtures). -/
def csvR1 : List Char := ("1,d1,11,12,13,14,15,16").data

def csvV1 : CsvPoint := { jd := 1, date := "d1".data, pos := (11, 12, 13), vel := (14, 15, 16) }

def csvR2 : List Char := ("2,d2,21,22,23,24,25,26").data

def csvV2 : CsvPoint := { jd := 2, date := "d2".data, pos := (21, 22, 23), vel := (24, 25, 26) }

def csvR3 : List Char := ("3,d3,31,32,33,34,35,36").data

def csvV3 : CsvPoint := { jd := 3, date := "d3".data, pos := (31, 32, 33), vel := (34, 35, 36) }

/-- A concrete malformed row with only 7 comma-separated fields. -/
def csvBad : List Char := ("9,b,1,2,3,4,5").data

/-- A trajectory point with a parseable date (witness fixture). -/
def ptJul1 : TrajPoint :=
  { jd := some 1, date := some ("2025-07-01 00:00:00".data), position := [7, 8, 9], tag := 0 }

/-- A trajectory point whose date is absent (witness fixture). -/
def ptNoDate : TrajPoint :=
  { jd := some 2, date := none, position := [3], tag := 1 }

end TrajSpec

deriving instance DecidableEq for Except

namespace TrajSpec

set_option maxRecDepth 8000

/-! ## Substring toolkit (for the missing-marker claims) -/

theorem isPrefixOf_append_of (p : List Char) :
    ∀ a b : List Char, p.isPrefixOf a = true → p.isPrefixOf (a ++ b) = true := by
  induction p with
  | nil => intro a b _; simp [List.isPrefixOf]
  | cons c cs ih =>
    intro a b h
    cases a with
    | nil => simp [List.isPrefixOf] at h
    | cons d ds =>
      simp only [List.cons_append, List.isPrefixOf, Bool.and_eq_true] at h ⊢
      exact ⟨h.1, ih ds b h.2⟩

theorem hasSubstr_of_isPrefixOf {p s : List Char} (h : p.isPrefixOf s = true) :
    hasSubstr p s = true := by
  cases s with
  | nil => simpa [hasSubstr] using h
  | cons c cs => simp [hasSubstr, h]

theorem hasSubstr_cons {p b : List Char} (c : Char) (h : hasSubstr p b = true) :
    hasSubstr p (c :: b) = true := by
  simp [hasSubstr, h]

theorem hasSubstr_append_left {p : List Char} :
    ∀ {a : List Char} (b : List Char), hasSubstr p a = true → hasSubstr p (a ++ b) = true := by
  intro a
  induction a with
  | nil =>
    intro b h
    simp only [hasSubstr] at h
    exact hasSubstr_of_isPrefixOf (isPrefixOf_append_of p [] b h)
  | cons c a' ih =>
    intro b h
    simp only [hasSubstr, Bool.or_eq_true] at h
    rcases h with h | h
    · exact hasSubstr_of_isPrefixOf (isPrefixOf_append_of p (c :: a') b h)
    · exact hasSubstr_cons c (ih b h)

theorem hasSubstr_append_right {p : List Char} (a : List Char) {b : List Char}
    (h : hasSubstr p b = true) : hasSubstr p (a ++ b) = true := by
  induction a with
  | nil => simpa using h
  | cons c a' ih => exact hasSubstr_cons c ih

theorem hasSubstr_dropWhile {p : List Char} (q : Char → Bool) :
    ∀ {l : List Char}, hasSubstr p (l.dropWhile q) = true → hasSubstr p l = true := by
  intro l
  induction l with
  | nil => intro h; simpa using h
  | cons c cs ih =>
    intro h
    by_cases hq : q c
    · rw [List.dropWhile_cons_of_pos hq] at h
      exact hasSubstr_cons c (ih h)
    · rwa [List.dropWhile_cons_of_neg hq] at h

theorem rstrip_cons (c : Char) (cs : List Char) :
    rstrip (c :: cs) =
      if ((rstrip cs).isEmpty && pyIsSpace c) = true then [] else c :: rstrip cs := rfl

theorem rstrip_append (s : List Char) : ∃ t, s = rstrip s ++ t := by
  induction s with
  | nil => exact ⟨[], rfl⟩
  | cons c cs ih =>
    obtain ⟨t, ht⟩ := ih
    by_cases hc : ((rstrip cs).isEmpty && pyIsSpace c) = true
    · refine ⟨c :: cs, ?_⟩
      rw [rstrip_cons, if_pos hc]
      rfl
    · refine ⟨t, ?_⟩
      rw [rstrip_cons, if_neg hc, List.cons_append, ← ht]

theorem hasSubstr_rstrip {p s : List Char} (h : hasSubstr p (rstrip s) = true) :
    hasSubstr p s = true := by
  obtain ⟨t, ht⟩ := rstrip_append s
  rw [ht]
  exact hasSubstr_append_left t h

theorem hasSubstr_pyStrip {p s : List Char} (h : hasSubstr p (pyStrip s) = true) :
    hasSubstr p s = true :=
  hasSubstr_dropWhile pyIsSpace (hasSubstr_rstrip h)

theorem splitOnPred_ne_nil (q : Char → Bool) (s : List Char) : splitOnPred q s ≠ [] := by
  cases s with
  | nil => simp [splitOnPred]
  | cons c cs =>
    by_cases hq : q c
    · simp [splitOnPred, hq]
    · simp only [splitOnPred, hq, Bool.false_eq_true, if_false]
      cases splitOnPred q cs <;> simp

theorem splitOnPred_head_append (q : Char → Bool) :
    ∀ (s l₀ : List Char) (ls : List (List Char)),
      splitOnPred q s = l₀ :: ls → ∃ rest, s = l₀ ++ rest := by
  intro s
  induction s with
  | nil =>
    intro l₀ ls h
    injection h with h1 _
    exact ⟨[], by rw [← h1]; rfl⟩
  | cons c cs ih =>
    intro l₀ ls h
    by_cases hq : q c
    · simp only [splitOnPred, hq, if_true] at h
      injection h with h1 _
      exact ⟨c :: cs, by rw [← h1]; rfl⟩
    · simp only [splitOnPred, hq, Bool.false_eq_true, if_false] at h
      rcases hm : splitOnPred q cs with _ | ⟨m, ms⟩
      · exact absurd hm (splitOnPred_ne_nil q cs)
      · rw [hm] at h
        obtain ⟨r, hr⟩ := ih m ms hm
        refine ⟨r, ?_⟩
        have : l₀ = c :: m := by
          have := h
          injection this with h1 _
          exact h1.symm
        rw [this, hr]
        rfl

theorem hasSubstr_of_mem_splitOnPred {p : List Char} (q : Char → Bool) :
    ∀ (s l : List Char), l ∈ splitOnPred q s → hasSubstr p l = true → hasSubstr p s = true := by
  intro s
  induction s with
  | nil =>
    intro l hl h
    simp [splitOnPred] at hl
    rwa [hl] at h
  | cons c cs ih =>
    intro l hl h
    by_cases hq : q c
    · simp only [splitOnPred, hq, if_true, List.mem_cons] at hl
      rcases hl with rfl | hl
      · simp only [hasSubstr] at h
        exact hasSubstr_of_isPrefixOf (isPrefixOf_append_of p [] (c :: cs) h)
      · exact hasSubstr_cons c (ih l hl h)
    · simp only [splitOnPred, hq, Bool.false_eq_true, if_false] at hl
      rcases hm : splitOnPred q cs with _ | ⟨m, ms⟩
      · exact absurd hm (splitOnPred_ne_nil q cs)
      · rw [hm] at hl
        obtain ⟨rest, hrest⟩ := splitOnPred_head_append q cs m ms hm
        simp only [List.mem_cons] at hl
        rcases hl with rfl | hl
        · simp only [hasSubstr, Bool.or_eq_true] at h
          rcases h with h | h
          · have : p.isPrefixOf (c :: m ++ rest) = true := isPrefixOf_append_of p (c :: m) rest h
            rw [hrest]
            exact hasSubstr_of_isPrefixOf this
          · rw [hrest]
            exact hasSubstr_cons c (hasSubstr_append_left rest h)
        · exact hasSubstr_cons c (ih l (hm ▸ List.mem_cons_of_mem m hl) h)

/-! ## C1: behaviour of both parsers when the start marker never occurs -/

theorem findSOE_eq_none : ∀ {text : List Char},
    hasSubstr ("$$SOE".data) text = false → findSOE text = none := by
  intro text
  induction text with
  | nil => intro _; decide
  | cons c cs ih =>
    intro h
    simp only [hasSubstr, Bool.or_eq_false_iff] at h
    have h1 : ("$$SOE".data).isPrefixOf (c :: cs) = false := h.1
    simp only [findSOE, soeMatchHere, h1, Bool.false_eq_true, if_false]
    exact ih h.2

theorem vdLoop_eq_nil : ∀ (lines : List (List Char)),
    (∀ l ∈ lines, ("$$SOE".data).isPrefixOf (pyStrip l) = false) →
    vdLoop lines false = [] := by
  intro lines
  induction lines with
  | nil => intro _; rfl
  | cons raw rest ih =>
    intro h
    have h1 := h raw (List.mem_cons_self raw rest)
    simp only [vdLoop, h1, Bool.false_eq_true, if_false]
    by_cases h2 : ("$$EOE".data).isPrefixOf (pyStrip raw) = true
    · simp [h2]
    · simp only [h2, if_false, Bool.not_false, Bool.true_or, if_true]
      exact ih (fun l hl => h l (List.mem_cons_of_mem raw hl))

/-- C1 (amended): on input with no `$$SOE` substring, the labeled-block
parser raises the missing-data-section error, while the CSV parser returns
normally with the empty list. -/
theorem c1_no_marker_amended (text : List Char)
    (h : hasSubstr ("$$SOE".data) text = false) :
    parseHorizonsVectors text = .error .missingDataSection ∧ parseVectorData text = [] := by
  constructor
  · rw [parseHorizonsVectors, findSOE_eq_none h]
  · rw [parseVectorData]
    apply vdLoop_eq_nil
    intro l hl
    by_contra hne
    have hpf : ("$$SOE".data).isPrefixOf (pyStrip l) = true := by
      cases hb : ("$$SOE".data).isPrefixOf (pyStrip l)
      · exact absurd hb hne
      · rfl
    have h1 : hasSubstr ("$$SOE".data) l = true :=
      hasSubstr_pyStrip (hasSubstr_of_isPrefixOf hpf)
    have h2 : hasSubstr ("$$SOE".data) text = true :=
      hasSubstr_of_mem_splitOnPred (fun c => c == '\n') text l hl h1
    rw [h] at h2
    exact Bool.false_ne_true h2

/-- C1 witness: a concrete markerless response, with the amended theorem's
hypothesis discharged by computation. -/
theorem c1_no_marker_amended_witness :
    parseHorizonsVectors noMarkerText = .error .missingDataSection ∧
      parseVectorData noMarkerText = [] :=
  c1_no_marker_amended noMarkerText (by decide)

/-- C1 counterexample: on a concrete input with no start marker the CSV
parser `_parse_vector_data` RETURNS a value (the empty list) instead of
failing with a `ParseError` — only the labeled-block parser raises — so the
claim that both parsers fail is false. -/
theorem c1_counterexample :
    parseVectorData noMarkerText = [] ∧
      parseHorizonsVectors noMarkerText = .error .missingDataSection := by
  constructor
  · decide
  · decide

/-! ## C2: the spec's labeled-block test vector -/

/-- C2 counterexample: the single parsed record's stored position is
`(0.16, 0.000058, 1.0)` — the Three.js conversion `[x, z, -y]` of the parsed
`(X, Y, Z) = (0.16, -1.0, 0.000058)` — not the claimed `(0.16, -1.0,
0.000058)`. -/
theorem c2_counterexample :
    parseHorizonsVectors c2text = .ok [c2rec] ∧
      c2rec.position ≠ [mkRat 4 25, -1, mkRat 29 500000] := by
  constructor
  · decide
  · decide

/-- C2 (amended): the test vector parses to exactly one record; the parsed
raw components are `(0.16, -1.0, 0.000058)` and `(0.016, 0.0026,
0.00000036)`, and the record stores them through `horizons_to_threejs`
(`[x, z, -y]`), giving position `(0.16, 0.000058, 1.0)` and velocity
`(0.016, 0.00000036, -0.0026)`. -/
theorem c2_labeled_block_amended :
    parseHorizonsVectors c2text = .ok [c2rec] ∧
      c2rec.position = horizonsToThreejs (mkRat 16 100) (-1) (mkRat 58 1000000) ∧
      c2rec.velocity = horizonsToThreejs (mkRat 16 1000) (mkRat 26 10000) (mkRat 36 100000000) := by
  refine ⟨by decide, by decide, by decide⟩

/-! ## C3: the gravitational-parameter constants -/

/-- C3 counterexample: `generate_trajectory.py`'s fallback uses
`mu = 0.000295912208286`, which is NOT the claimed exact constant
`2.959122083e-4`. -/
theorem c3_counterexample : Gen.mu ≠ (2959122083 : ℚ) / 10 ^ 13 := by
  norm_num [Gen.mu]

/-- C3 (amended): both implementations compute the mean motion as
`sqrt(mu/|a|³)`, but with different constants: the artifact backend uses
exactly `2.959122083e-4` while `generate_trajectory.py` uses
`0.000295912208286`. -/
theorem c3_mean_motion_amended :
    Art.MU_SUN = (2959122083 : ℚ) / 10 ^ 13 ∧
      Gen.mu = (295912208286 : ℚ) / 10 ^ 15 ∧
      Gen.mu ≠ Art.MU_SUN ∧
      (∀ e q : ℝ, Art.n e q = Real.sqrt ((Art.MU_SUN : ℝ) / |Art.a e q ^ 3|)) ∧
      (∀ e q : ℝ, Gen.n e q = Real.sqrt ((Gen.mu : ℝ) / |Gen.a e q| ^ 3)) :=
  ⟨rfl, rfl, by norm_num [Gen.mu, Art.MU_SUN], fun _ _ => rfl, fun _ _ => rfl⟩

/-! ## C4: radius at the perihelion epoch -/

theorem newtonIterFrom_zero (e : ℝ) : ∀ k, newtonIterFrom e 0 0 k = 0 := by
  intro k
  induction k with
  | zero => rfl
  | succ k ih =>
    rw [newtonIterFrom, ih, newtonStep]
    simp [Real.sinh_zero]

/-- C4: at elapsed time `t = 0` (the perihelion epoch) both fallback
propagators return radius exactly `q`: the mean anomaly is 0, every Newton
iterate stays at the exact root `F = 0`, and `a·(1 − e·cosh 0) = a·(1−e) =
q`. -/
theorem c4_perihelion_radius (e q : ℝ) (he : 1 < e) (hq : 0 < q) :
    Art.r e q 0 = q ∧ Gen.r e q 0 = q := by
  have he1 : e - 1 ≠ 0 := by
    have : (0 : ℝ) < e - 1 := by linarith
    exact ne_of_gt this
  have he1' : (1 : ℝ) - e ≠ 0 := by
    intro h0
    exact he1 (by linarith)
  constructor
  · have hM : Art.M e q 0 = 0 := mul_zero _
    have hF : Art.F e q 0 = 0 := by
      rw [Art.F, hM]
      exact newtonIterFrom_zero e 10
    rw [Art.r, hF, Real.cosh_zero, mul_one, Art.a]
    exact div_mul_cancel₀ q he1'
  · have hM : Gen.M e q 0 = 0 := mul_zero _
    have hF : Gen.F e q 0 = 0 := by
      rw [Gen.F, hM]
      have : ¬(50 < |(0 : ℝ)|) := by norm_num
      rw [if_neg this]
      have hseed : Real.sign (0 : ℝ) * Real.log (|(0 : ℝ)| + 1) = 0 := by
        simp [Real.log_one]
      rw [hseed]
      exact newtonIterFrom_zero e 20
    rw [Gen.r, hF, Real.cosh_zero, mul_one, Gen.a]
    field_simp
    ring

/-- C4 witness at the concrete hyperbolic elements `e = 2`, `q = 1`. -/
theorem c4_perihelion_radius_witness :
    (1 : ℝ) < 2 ∧ (0 : ℝ) < 1 ∧ Art.r 2 1 0 = 1 ∧ Gen.r 2 1 0 = 1 :=
  ⟨by norm_num, by norm_num,
    (c4_perihelion_radius 2 1 (by norm_num) (by norm_num)).1,
    (c4_perihelion_radius 2 1 (by norm_num) (by norm_num)).2⟩

/-! ## C7: symmetry of the hyperbola about perihelion -/

theorem newtonStep_neg (e Mv Fv : ℝ) : newtonStep e (-Mv) (-Fv) = -newtonStep e Mv Fv := by
  simp only [newtonStep, Real.sinh_neg, Real.cosh_neg]
  ring

theorem newtonIterFrom_neg (e Mv F0 : ℝ) :
    ∀ k, newtonIterFrom e (-Mv) (-F0) k = -newtonIterFrom e Mv F0 k := by
  intro k
  induction k with
  | zero => rfl
  | succ k ih => rw [newtonIterFrom, newtonIterFrom, ih, newtonStep_neg]

/-- C7: the distance from the sun reported by `calculate_position` is the
same at elapsed times `−Δt` and `+Δt`: the Newton iteration is odd in the
mean anomaly, so `F(−Δt) = −F(Δt)`, and the radius depends on `F` only
through the even `cosh`. -/
theorem c7_perihelion_symmetry (e q dt : ℝ) (he : 1 < e) :
    Art.distanceAU e q (-dt) = Art.distanceAU e q dt := by
  have hM : Art.M e q (-dt) = -Art.M e q dt := mul_neg _ _
  have hF : Art.F e q (-dt) = -Art.F e q dt := by
    rw [Art.F, Art.F, hM]
    exact newtonIterFrom_neg e (Art.M e q dt) (Art.M e q dt) 10
  rw [Art.distanceAU, Art.distanceAU, Art.r, Art.r, hF, Real.cosh_neg]

/-- C7 witness at `e = 2`, `q = 1`, `Δt = 5` days. -/
theorem c7_perihelion_symmetry_witness :
    (1 : ℝ) < 2 ∧ Art.distanceAU 2 1 (-5) = Art.distanceAU 2 1 5 :=
  ⟨by norm_num, c7_perihelion_symmetry 2 1 5 (by norm_num)⟩

/-! ## C8: the two velocity-direction formulas disagree -/

theorem sinh_le_self_mul_cosh {x : ℝ} (hx : 0 ≤ x) : Real.sinh x ≤ x * Real.cosh x := by
  have hmono : MonotoneOn (fun y : ℝ => y * Real.cosh y - Real.sinh y) (Set.Ici 0) := by
    apply monotoneOn_of_deriv_nonneg (convex_Ici 0)
    · exact ((continuous_id.mul Real.continuous_cosh).sub Real.continuous_sinh).continuousOn
    · intro y _
      exact (((differentiable_id.mul Real.differentiable_cosh).sub
        Real.differentiable_sinh) y).differentiableWithinAt
    · intro y hy
      rw [interior_Ici] at hy
      have hd : HasDerivAt (fun z : ℝ => z * Real.cosh z - Real.sinh z)
          (1 * Real.cosh y + y * Real.sinh y - Real.cosh y) y :=
        ((hasDerivAt_id y).mul (Real.hasDerivAt_cosh y)).sub (Real.hasDerivAt_sinh y)
      rw [hd.deriv]
      have hs : 0 ≤ Real.sinh y := by
        rw [← Real.sinh_zero]
        exact (Real.sinh_le_sinh).mpr (le_of_lt hy)
      nlinarith [le_of_lt hy]
  have h0 : (fun y : ℝ => y * Real.cosh y - Real.sinh y) 0 ≤
      (fun y : ℝ => y * Real.cosh y - Real.sinh y) x :=
    hmono (Set.left_mem_Ici) hx hx
  simp only [Real.sinh_zero, Real.cosh_zero, zero_mul, sub_zero] at h0
  linarith

theorem newtonStep_pos {e Mv Fv : ℝ} (he : 1 < e) (hM : 0 < Mv) (hF : 0 < Fv) :
    0 < newtonStep e Mv Fv := by
  have hcosh : 1 ≤ Real.cosh Fv := Real.one_le_cosh Fv
  have hd : 0 < e * Real.cosh Fv - 1 := by nlinarith
  have hstep : newtonStep e Mv Fv =
      (Mv + e * (Fv * Real.cosh Fv - Real.sinh Fv)) / (e * Real.cosh Fv - 1) := by
    rw [newtonStep, eq_div_iff (ne_of_gt hd)]
    field_simp
    ring
  rw [hstep]
  apply div_pos _ hd
  have hsl : Real.sinh Fv ≤ Fv * Real.cosh Fv := sinh_le_self_mul_cosh hF.le
  nlinarith

theorem newtonIterFrom_pos {e Mv : ℝ} (he : 1 < e) (hM : 0 < Mv) :
    ∀ k, 0 < newtonIterFrom e Mv Mv k := by
  intro k
  induction k with
  | zero => exact hM
  | succ k ih => exact newtonStep_pos he hM ih

/-- C8: at the hyperbolic elements `e = 3`, `q = 1` and elapsed time
`t = 1` day, the two fallback velocity formulas — `v_angle = ν + π/2` from
`calculate_position` and the normalized `(−sin ν, e + cos ν)` from
`kepler_fallback_trajectory` — evaluated at the same true anomaly and speed
produce different orbital-plane velocity vectors of the same magnitude;
consequently the two formula functions are not equal. -/
theorem c8_velocity_formulas_differ :
    (1 : ℝ) < 3 ∧
    Art.velPerp (Art.nu 3 1 1) (Art.vmag 3 1 1) ≠
      Gen.velVis 3 (Art.nu 3 1 1) (Art.vmag 3 1 1) ∧
    mag2 (Art.velPerp (Art.nu 3 1 1) (Art.vmag 3 1 1)) =
      mag2 (Gen.velVis 3 (Art.nu 3 1 1) (Art.vmag 3 1 1)) ∧
    (fun p : ℝ × ℝ × ℝ => Art.velPerp p.2.1 p.2.2) ≠
      (fun p : ℝ × ℝ × ℝ => Gen.velVis p.1 p.2.1 p.2.2) := by
  have hMU : (0 : ℝ) < (Art.MU_SUN : ℝ) := by
    rw [show ((Art.MU_SUN : ℚ) : ℝ) = ((2959122083 : ℚ) : ℝ) / ((10 : ℚ) : ℝ) ^ 13 from by
      push_cast [Art.MU_SUN]; ring]
    positivity
  have ha : Art.a 3 1 = -(1/2) := by norm_num [Art.a]
  have hn : 0 < Art.n 3 1 := by
    rw [Art.n, ha]
    apply Real.sqrt_pos.mpr
    have : |(-(1/2) : ℝ) ^ 3| = 1/8 := by norm_num
    rw [this]
    positivity
  have hM : 0 < Art.M 3 1 1 := by rw [Art.M, mul_one]; exact hn
  have hF : 0 < Art.F 3 1 1 := by
    rw [Art.F]
    exact newtonIterFrom_pos (by norm_num) hM 10
  have htanh : 0 < Real.tanh (Art.F 3 1 1 / 2) := by
    rw [Real.tanh_eq_sinh_div_cosh]
    exact div_pos (Real.sinh_pos_iff.mpr (by linarith)) (Real.cosh_pos _)
  have hsq2 : (0 : ℝ) < Real.sqrt ((3 + 1) / (3 - 1)) := by
    apply Real.sqrt_pos.mpr; norm_num
  have harg : 0 < Real.sqrt (((3:ℝ) + 1) / (3 - 1)) * Real.tanh (Art.F 3 1 1 / 2) :=
    mul_pos hsq2 htanh
  have hat0 : 0 < Real.arctan (Real.sqrt (((3:ℝ) + 1) / (3 - 1)) * Real.tanh (Art.F 3 1 1 / 2)) := by
    have := Real.arctan_strictMono harg
    rwa [Real.arctan_zero] at this
  have hatpi : Real.arctan (Real.sqrt (((3:ℝ) + 1) / (3 - 1)) * Real.tanh (Art.F 3 1 1 / 2)) <
      Real.pi / 2 := Real.arctan_lt_pi_div_two _
  have hnu0 : 0 < Art.nu 3 1 1 := by rw [Art.nu]; linarith
  have hnupi : Art.nu 3 1 1 < Real.pi := by rw [Art.nu]; linarith
  have hsin : 0 < Real.sin (Art.nu 3 1 1) := Real.sin_pos_of_pos_of_lt_pi hnu0 hnupi
  have hr : 0 < Art.r 3 1 1 := by
    rw [Art.r, ha]
    nlinarith [Real.one_le_cosh (Art.F 3 1 1)]
  have hv : 0 < Art.vmag 3 1 1 := by
    rw [Art.vmag, ha]
    apply Real.sqrt_pos.mpr
    have habs : |Art.r 3 1 1| = Art.r 3 1 1 := abs_of_pos hr
    rw [habs]
    have h2r : 0 < 2 / Art.r 3 1 1 := by positivity
    have : 2 / Art.r 3 1 1 - 1 / (-(1/2) : ℝ) = 2 / Art.r 3 1 1 + 2 := by norm_num
    rw [this]
    have : (0:ℝ) < 2 / Art.r 3 1 1 + 2 := by linarith
    exact mul_pos hMU this
  set ν := Art.nu 3 1 1 with hνdef
  set v := Art.vmag 3 1 1 with hvdef
  set vx : ℝ := -v * Real.sin ν with hvx
  set vy : ℝ := v * (3 + Real.cos ν) with hvy
  have hvn2 : vx ^ 2 + vy ^ 2 = v ^ 2 * (10 + 6 * Real.cos ν) := by
    rw [hvx, hvy]
    linear_combination (v ^ 2) * Real.sin_sq_add_cos_sq ν
  have hcge : (4 : ℝ) ≤ 10 + 6 * Real.cos ν := by
    have := Real.neg_one_le_cos ν
    linarith
  have hvn : Real.sqrt (vx ^ 2 + vy ^ 2) = v * Real.sqrt (10 + 6 * Real.cos ν) := by
    rw [hvn2, Real.sqrt_mul (sq_nonneg v), Real.sqrt_sq hv.le]
  have h4 : Real.sqrt 4 = 2 := by
    rw [show (4:ℝ) = 2 ^ 2 by norm_num, Real.sqrt_sq (by norm_num : (0:ℝ) ≤ 2)]
  have hsqge : (2 : ℝ) ≤ Real.sqrt (10 + 6 * Real.cos ν) := by
    rw [← h4]
    exact Real.sqrt_le_sqrt hcge
  have hvngt : v < Real.sqrt (vx ^ 2 + vy ^ 2) := by
    rw [hvn]; nlinarith
  have hvnpos : 0 < Real.sqrt (vx ^ 2 + vy ^ 2) := lt_trans hv hvngt
  have hB : Gen.velVis 3 ν v =
      (vx / Real.sqrt (vx ^ 2 + vy ^ 2) * v, vy / Real.sqrt (vx ^ 2 + vy ^ 2) * v) := by
    rw [Gen.velVis]
    simp only [← hvx, ← hvy]
    rw [if_pos hvnpos]
  have hA : Art.velPerp ν v = (-(v * Real.sin ν), v * Real.cos ν) := by
    rw [Art.velPerp, Real.cos_add_pi_div_two, Real.sin_add_pi_div_two]
    have : v * -Real.sin ν = -(v * Real.sin ν) := by ring
    rw [this]
  have hvnne : Real.sqrt (vx ^ 2 + vy ^ 2) ≠ 0 := ne_of_gt hvnpos
  have hvnsq : Real.sqrt (vx ^ 2 + vy ^ 2) ^ 2 = vx ^ 2 + vy ^ 2 :=
    Real.sq_sqrt (by positivity)
  have hneq : Art.velPerp ν v ≠ Gen.velVis 3 ν v := by
    intro heq
    rw [hA, hB, Prod.mk.injEq] at heq
    have heq1 := heq.1
    field_simp at heq1
    rw [hvx] at heq1
    nlinarith [mul_pos hv hsin, hvngt, heq1]
  have hmag : mag2 (Art.velPerp ν v) = mag2 (Gen.velVis 3 ν v) := by
    rw [hA, hB]
    simp only [mag2]
    have hL : (-(v * Real.sin ν)) ^ 2 + (v * Real.cos ν) ^ 2 = v ^ 2 := by
      linear_combination v ^ 2 * Real.sin_sq_add_cos_sq ν
    have hSpos : 0 < vx ^ 2 + vy ^ 2 := by
      have hvxlt : vx < 0 := by
        rw [hvx]
        nlinarith [mul_pos hv hsin]
      nlinarith [mul_pos (neg_pos.2 hvxlt) (neg_pos.2 hvxlt), sq_nonneg vy]
    have hR : (vx / Real.sqrt (vx ^ 2 + vy ^ 2) * v) ^ 2 +
        (vy / Real.sqrt (vx ^ 2 + vy ^ 2) * v) ^ 2 = v ^ 2 := by
      have e1 : (vx / Real.sqrt (vx ^ 2 + vy ^ 2) * v) ^ 2 +
          (vy / Real.sqrt (vx ^ 2 + vy ^ 2) * v) ^ 2 =
          (vx ^ 2 + vy ^ 2) * v ^ 2 / Real.sqrt (vx ^ 2 + vy ^ 2) ^ 2 := by
        ring
      rw [e1, hvnsq, mul_comm, mul_div_assoc, div_self (ne_of_gt hSpos), mul_one]
    rw [hL, hR]
  exact ⟨by norm_num, hneq, hmag, fun hf => hneq (congrFun hf (3, ν, v))⟩

/-! ## C5: CSV block with a malformed row -/

theorem splitOnPred_no_sep (q : Char → Bool) :
    ∀ l : List Char, (∀ c ∈ l, q c = false) → splitOnPred q l = [l] := by
  intro l
  induction l with
  | nil => intro _; rfl
  | cons c cs ih =>
    intro h
    have hc : q c = false := h c (List.mem_cons_self c cs)
    simp only [splitOnPred, hc, Bool.false_eq_true, if_false]
    rw [ih (fun d hd => h d (List.mem_cons_of_mem c hd))]

theorem splitOnPred_append_sep (q : Char → Bool) {sep : Char} (hsep : q sep = true) :
    ∀ (l : List Char) (rest : List Char), (∀ c ∈ l, q c = false) →
      splitOnPred q (l ++ sep :: rest) = l :: splitOnPred q rest := by
  intro l
  induction l with
  | nil =>
    intro rest _
    simp only [List.nil_append, splitOnPred, hsep, if_true]
  | cons c cs ih =>
    intro rest h
    have hc : q c = false := h c (List.mem_cons_self c cs)
    have hih := ih rest (fun d hd => h d (List.mem_cons_of_mem c hd))
    simp only [List.cons_append, splitOnPred, hc, Bool.false_eq_true, if_false,
      List.append_eq, hih]

theorem splitOnPred_joinWith (q : Char → Bool) {sep : Char} (hsep : q sep = true) :
    ∀ lines : List (List Char), lines ≠ [] →
      (∀ l ∈ lines, ∀ c ∈ l, q c = false) →
      splitOnPred q (joinWith sep lines) = lines := by
  intro lines
  induction lines with
  | nil => intro h _; exact absurd rfl h
  | cons x xs ih =>
    intro _ h
    cases xs with
    | nil =>
      rw [joinWith]
      exact splitOnPred_no_sep q x (h x (List.mem_cons_self x []))
    | cons y ys =>
      rw [show joinWith sep (x :: y :: ys) = x ++ sep :: joinWith sep (y :: ys) from rfl]
      rw [splitOnPred_append_sep q hsep x (joinWith sep (y :: ys))
        (h x (List.mem_cons_self x (y :: ys)))]
      rw [ih (by simp) (fun l hl => h l (List.mem_cons_of_mem x hl))]

theorem vdLoop_cons_wff {r : List Char} {v : CsvPoint} (rest : List (List Char))
    (h : wffRow r v) : vdLoop (r :: rest) true = v :: vdLoop rest true := by
  obtain ⟨h1, h2, h3, h4, h5⟩ := h
  simp only [vdLoop, h1, h2, Bool.false_eq_true, if_false, h3, h4,
    Bool.not_true, Bool.false_or, Bool.or_false, Bool.not_false, h5]

theorem vdLoop_cons_bad {m : List Char} (rest : List (List Char)) (h : badRow m) :
    vdLoop (m :: rest) true = vdLoop rest true := by
  obtain ⟨h1, h2, h3, h4, h5⟩ := h
  have hnone : parseCsvRow (pyStrip m) = none := by
    rw [parseCsvRow]
    simp only [List.length_map, h5]
    rw [if_pos (by norm_num)]
  simp only [vdLoop, h1, h2, Bool.false_eq_true, if_false, h3, h4,
    Bool.not_true, Bool.false_or, Bool.or_false, Bool.not_false, hnone]

theorem vdLoop_eoe (rest : List (List Char)) : vdLoop (("$$EOE".data) :: rest) true = [] := by
  have h1 : ("$$SOE".data).isPrefixOf (pyStrip ("$$EOE".data)) = false := by decide
  have h2 : ("$$EOE".data).isPrefixOf (pyStrip ("$$EOE".data)) = true := by decide
  simp only [vdLoop, h1, Bool.false_eq_true, if_false, h2, if_true]

theorem vdLoop_soe (rest : List (List Char)) :
    vdLoop (("$$SOE".data) :: rest) false = vdLoop rest true := by
  have h1 : ("$$SOE".data).isPrefixOf (pyStrip ("$$SOE".data)) = true := by decide
  simp only [vdLoop, h1, if_true]

/-- C5: a CSV data block whose rows are three well-formed rows and one
malformed 7-field row, in any arrangement (`A ++ [m] ++ B` with
`A ++ B = [r1, r2, r3]`), parses to exactly the three records of the
well-formed rows, in input order. -/
theorem c5_csv_malformed_row (A B : List (List Char)) (r1 r2 r3 m : List Char)
    (v1 v2 v3 : CsvPoint)
    (h1 : wffRow r1 v1) (h2 : wffRow r2 v2) (h3 : wffRow r3 v3) (hm : badRow m)
    (hsplit : A ++ B = [r1, r2, r3])
    (hnl : ∀ l ∈ A ++ m :: B, ('\n') ∉ l) :
    parseVectorData (joinWith '\n' (("$$SOE".data) :: (A ++ m :: B) ++ [("$$EOE".data)])) =
      [v1, v2, v3] := by
  have hqlines : ∀ l ∈ ("$$SOE".data) :: (A ++ m :: B) ++ [("$$EOE".data)],
      ∀ c ∈ l, (c == '\n') = false := by
    intro l hl c hc
    have hnotnl : '\n' ∉ l := by
      simp only [List.cons_append, List.mem_cons, List.mem_append,
        List.mem_singleton] at hl
      rcases hl with rfl | hl
      · decide
      · rcases hl with hl | hl2
        · exact hnl l (by simpa using hl)
        · rcases hl2 with rfl | h0
          · decide
          · exact absurd h0 (List.not_mem_nil l)
    exact beq_eq_false_iff_ne.mpr (fun hEq => hnotnl (hEq ▸ hc))
  rw [parseVectorData, splitOnChar]
  rw [splitOnPred_joinWith (fun c => c == '\n') (by decide)
    (("$$SOE".data) :: (A ++ m :: B) ++ [("$$EOE".data)]) (by simp) hqlines]
  have hlist : ("$$SOE".data) :: (A ++ m :: B) ++ [("$$EOE".data)] =
      ("$$SOE".data) :: ((A ++ m :: B) ++ [("$$EOE".data)]) := rfl
  rw [hlist, vdLoop_soe]
  rcases A with _ | ⟨a1, _ | ⟨a2, _ | ⟨a3, _ | ⟨a4, A'⟩⟩⟩⟩
  · simp only [List.nil_append] at hsplit
    subst hsplit
    simp only [List.nil_append, List.cons_append]
    rw [vdLoop_cons_bad _ hm, vdLoop_cons_wff _ h1, vdLoop_cons_wff _ h2,
      vdLoop_cons_wff _ h3, vdLoop_eoe]
  · simp only [List.cons_append, List.nil_append, List.cons.injEq] at hsplit
    obtain ⟨rfl, rfl⟩ := hsplit
    simp only [List.cons_append, List.nil_append]
    rw [vdLoop_cons_wff _ h1, vdLoop_cons_bad _ hm, vdLoop_cons_wff _ h2,
      vdLoop_cons_wff _ h3, vdLoop_eoe]
  · simp only [List.cons_append, List.nil_append, List.cons.injEq] at hsplit
    obtain ⟨rfl, rfl, rfl⟩ := hsplit
    simp only [List.cons_append, List.nil_append]
    rw [vdLoop_cons_wff _ h1, vdLoop_cons_wff _ h2, vdLoop_cons_bad _ hm,
      vdLoop_cons_wff _ h3, vdLoop_eoe]
  · simp only [List.cons_append, List.nil_append, List.cons.injEq] at hsplit
    obtain ⟨rfl, rfl, rfl, rfl⟩ := hsplit
    simp only [List.cons_append, List.nil_append, List.append_nil]
    rw [vdLoop_cons_wff _ h1, vdLoop_cons_wff _ h2, vdLoop_cons_wff _ h3,
      vdLoop_cons_bad _ hm, vdLoop_eoe]
  · have := congrArg List.length hsplit
    simp at this

/-- C5 witness: concrete block `[row1, malformed, row2, row3]`. -/
theorem c5_csv_malformed_row_witness :
    parseVectorData (joinWith '\n'
      (("$$SOE".data) :: ([csvR1] ++ csvBad :: [csvR2, csvR3]) ++ [("$$EOE".data)])) =
      [csvV1, csvV2, csvV3] :=
  c5_csv_malformed_row [csvR1] [csvR2, csvR3] csvR1 csvR2 csvR3 csvBad csvV1 csvV2 csvV3
    ⟨by decide, by decide, by decide, by decide, by decide⟩
    ⟨by decide, by decide, by decide, by decide, by decide⟩
    ⟨by decide, by decide, by decide, by decide, by decide⟩
    ⟨by decide, by decide, by decide, by decide, by decide⟩
    (by decide) (by decide)

/-! ## C6: the merge operation -/

theorem sorted_cons_insJd (x : TrajPoint) :
    ∀ (rest : List TrajPoint) (y : TrajPoint), jdKey y ≤ jdKey x →
      isSortedByJd (y :: rest) = true → isSortedByJd (y :: insJd x rest) = true := by
  intro rest
  induction rest with
  | nil =>
    intro y hyx _
    simp [insJd, isSortedByJd, hyx]
  | cons z rs ih =>
    intro y hyx h
    have hyz : jdKey y ≤ jdKey z := by
      simp only [isSortedByJd, Bool.and_eq_true, decide_eq_true_eq] at h
      exact h.1
    have hzs : isSortedByJd (z :: rs) = true := by
      simp only [isSortedByJd, Bool.and_eq_true] at h
      exact h.2
    rw [insJd]
    by_cases hxz : jdKey x ≤ jdKey z
    · rw [if_pos hxz]
      simp only [isSortedByJd, Bool.and_eq_true, decide_eq_true_eq]
      refine ⟨hyx, hxz, ?_⟩
      simpa [isSortedByJd] using hzs
    · rw [if_neg hxz]
      have hzx : jdKey z ≤ jdKey x := le_of_not_le hxz
      have := ih z hzx hzs
      simp only [isSortedByJd, Bool.and_eq_true, decide_eq_true_eq]
      constructor
      · exact hyz
      · simpa [isSortedByJd] using this

theorem insJd_sorted (x : TrajPoint) :
    ∀ l : List TrajPoint, isSortedByJd l = true → isSortedByJd (insJd x l) = true := by
  intro l h
  cases l with
  | nil => rfl
  | cons y rest =>
    rw [insJd]
    by_cases hxy : jdKey x ≤ jdKey y
    · rw [if_pos hxy]
      simp only [isSortedByJd, Bool.and_eq_true, decide_eq_true_eq]
      refine ⟨hxy, ?_⟩
      simpa [isSortedByJd] using h
    · rw [if_neg hxy]
      exact sorted_cons_insJd x rest y (le_of_not_le hxy) h

theorem sortByJd_sorted (l : List TrajPoint) : isSortedByJd (sortByJd l) = true := by
  induction l with
  | nil => rfl
  | cons p ps ih => exact insJd_sorted p (sortByJd ps) ih

/-- C6 counterexample: merging the empty persisted series with a fresh list
whose Julian dates are out of order returns that list unchanged — the
merged result is NOT re-sorted by Julian date, so the claim's universally
quantified sortedness fails. -/
theorem c6_merge_counterexample :
    mergeTrajectoryData [] [mergeHi, mergeLo] = .ok [mergeHi, mergeLo] ∧
      isSortedByJd [mergeHi, mergeLo] = false :=
  ⟨rfl, by decide⟩

/-- C6 (amended): merging with an empty list returns the other list
unchanged (and unsorted); for nonempty inputs, whenever the merge returns
normally its result is sorted ascending by Julian date, and merging two
single-point series sharing the date key `2025-07-01` yields exactly the new
point (new overwrites old), for any payloads. -/
theorem c6_merge_amended :
    (∀ freshNew, mergeTrajectoryData [] freshNew = .ok freshNew) ∧
      (∀ existing, existing ≠ [] → mergeTrajectoryData existing [] = .ok existing) ∧
      (∀ existing freshNew res, existing ≠ [] → freshNew ≠ [] →
        mergeTrajectoryData existing freshNew = .ok res → isSortedByJd res = true) ∧
      (∀ (j1 j2 : Option ℚ) (pos1 pos2 : List ℚ) (t1 t2 : ℕ),
        mergeTrajectoryData
          [{ jd := j1, date := some ("2025-07-01".data), position := pos1, tag := t1 }]
          [{ jd := j2, date := some ("2025-07-01".data), position := pos2, tag := t2 }] =
          .ok [{ jd := j2, date := some ("2025-07-01".data), position := pos2, tag := t2 }]) := by
  refine ⟨fun freshNew => rfl, ?_, ?_, ?_⟩
  · intro existing hex
    cases existing with
    | nil => exact absurd rfl hex
    | cons a as => rfl
  · intro existing freshNew res hex hnw h
    cases existing with
    | nil => exact absurd rfl hex
    | cons a as =>
      cases freshNew with
      | nil => exact absurd rfl hnw
      | cons b bs =>
        rw [mergeTrajectoryData] at h
        simp only [List.isEmpty_cons, Bool.false_eq_true, if_false] at h
        cases h1 : insertAll (a :: as) [] with
        | error e => simp only [h1] at h; cases h
        | ok d1 =>
          simp only [h1] at h
          cases h2 : insertAll (b :: bs) d1 with
          | error e => simp only [h2] at h; cases h
          | ok d2 =>
            simp only [h2] at h
            injection h with h3
            rw [← h3]
            exact sortByJd_sorted _
  · intro j1 j2 pos1 pos2 t1 t2
    rfl

/-- C6 witness: the amended theorem's hypotheses discharged at concrete
series. -/
theorem c6_merge_amended_witness :
    mergeTrajectoryData [mergeLo] [] = .ok [mergeLo] ∧
      isSortedByJd [mergeLo, mergeHi] = true :=
  ⟨c6_merge_amended.2.1 [mergeLo] (by simp),
    c6_merge_amended.2.2.1 [mergeLo] [mergeHi] [mergeLo, mergeHi] (by simp) (by simp)
      (by decide)⟩

/-! ## C10: pruning, and C9: the milestone locator -/

/-- C10: pruning equals filtering out exactly the points whose date parses
to an instant strictly earlier than cutoff minus 30 days; points whose date
is missing or unparseable are never dropped, and retained points keep their
relative order (both facts are consequences of the filter equation). -/
theorem c10_prune_retention (l : List TrajPoint) (cutoff : ℚ) :
    pruneOldData l cutoff = l.filter (fun p => !dropsPoint cutoff p) ∧
      (∀ p, pruneKey p = none → dropsPoint cutoff p = false) := by
  constructor
  · induction l with
    | nil => rfl
    | cons p rest ih =>
      cases hk : pruneKey p with
      | none =>
        have hd : dropsPoint cutoff p = false := by rw [dropsPoint, hk]
        simp only [pruneOldData, hk, List.filter_cons, hd, Bool.not_false, if_true, ih]
      | some pd =>
        have hd : dropsPoint cutoff p =
            decide (((pd * 86400 : ℤ) : ℚ) < cutoff - 30 * 86400) := by
          rw [dropsPoint, hk]
        by_cases hge : ((pd * 86400 : ℤ) : ℚ) ≥ cutoff - 30 * 86400
        · have hdf : dropsPoint cutoff p = false := by
            rw [hd]
            exact decide_eq_false (not_lt.mpr hge)
          simp only [pruneOldData, hk, List.filter_cons, hdf, Bool.not_false, if_true, ih]
          rw [if_pos hge]
        · have hdt : dropsPoint cutoff p = true := by
            rw [hd]
            exact decide_eq_true (lt_of_not_ge hge)
          simp only [pruneOldData, hk, List.filter_cons, hdt, Bool.not_true,
            Bool.false_eq_true, if_false, ih]
          rw [if_neg hge]
  · intro p hk
    rw [dropsPoint, hk]

/-- C10 witness: a parseable point and a dateless point at a concrete
cutoff. -/
theorem c10_prune_retention_witness :
    pruneOldData [ptJul1, ptNoDate] 10000000000 =
        [ptJul1, ptNoDate].filter (fun p => !dropsPoint 10000000000 p) ∧
      dropsPoint 10000000000 ptNoDate = false :=
  ⟨(c10_prune_retention [ptJul1, ptNoDate] 10000000000).1,
    (c10_prune_retention [ptJul1, ptNoDate] 10000000000).2 ptNoDate (by decide)⟩

theorem fpLoop_eq_pickFold (td : ℤ) :
    ∀ (l : List TrajPoint) (st : Option (ℤ × List ℚ)),
      fpLoop td l st = pickFold st (fpCands td l) := by
  intro l
  induction l with
  | nil => intro st; rfl
  | cons p rest ih =>
    intro st
    simp only [fpLoop, fpCands, List.filterMap_cons]
    cases hd : dateDiffSec td p with
    | none =>
      simp only [Option.map_none]
      exact ih st
    | some d =>
      simp only [Option.map_some]
      cases st with
      | none =>
        simp only [pickFold]
        exact ih (some (d, p.position))
      | some mp =>
        rcases mp with ⟨m, pos⟩
        simp only [pickFold]
        by_cases hdm : d < m
        · rw [if_pos hdm, if_pos hdm]
          exact ih (some (d, p.position))
        · rw [if_neg hdm, if_neg hdm]
          exact ih (some (m, pos))

theorem pickFold_spec :
    ∀ (cs : List (ℤ × List ℚ)) (b : ℤ × List ℚ),
      ∃ r pre post, pickFold (some b) cs = some r ∧ b :: cs = pre ++ r :: post ∧
        (∀ y ∈ pre, r.1 < y.1) ∧ (∀ y ∈ b :: cs, r.1 ≤ y.1) := by
  intro cs
  induction cs with
  | nil =>
    intro b
    refine ⟨b, [], [], rfl, rfl, by simp, ?_⟩
    intro y hy
    simp only [List.mem_singleton] at hy
    rw [hy]
  | cons c cs' ih =>
    intro b
    rcases b with ⟨bm, bp⟩
    by_cases hc : c.1 < bm
    · obtain ⟨r, pre, post, hpick, hsplit0, hpre, hmin⟩ := ih c
      have hrc : r.1 ≤ c.1 := hmin c (List.mem_cons_self c cs')
      refine ⟨r, (bm, bp) :: pre, post, ?_, ?_, ?_, ?_⟩
      · simp only [pickFold]
        rw [if_pos hc]
        exact hpick
      · rw [List.cons_append, ← hsplit0]
      · intro y hy
        rcases List.mem_cons.mp hy with rfl | hy
        · exact lt_of_le_of_lt hrc hc
        · exact hpre y hy
      · intro y hy
        rcases List.mem_cons.mp hy with rfl | hy
        · exact le_of_lt (lt_of_le_of_lt hrc hc)
        · exact hmin y hy
    · obtain ⟨r, pre, post, hpick, hsplit0, hpre, hmin⟩ := ih (bm, bp)
      have hbc : bm ≤ c.1 := le_of_not_lt hc
      cases pre with
      | nil =>
        simp only [List.nil_append] at hsplit0
        injection hsplit0 with hb hpost
        refine ⟨r, [], c :: post, ?_, ?_, by simp, ?_⟩
        · simp only [pickFold]
          rw [if_neg hc]
          exact hpick
        · rw [List.nil_append, ← hb, ← hpost]
        · intro y hy
          rcases List.mem_cons.mp hy with rfl | hy
          · exact hmin (bm, bp) (List.mem_cons_self _ _)
          · rcases List.mem_cons.mp hy with rfl | hy
            · have hrbm : r.1 ≤ bm := by rw [← hb]
              calc r.1 ≤ bm := hrbm
                _ ≤ y.1 := hbc
            · exact hmin y (List.mem_cons_of_mem _ hy)
      | cons p0 pre' =>
        simp only [List.cons_append] at hsplit0
        injection hsplit0 with hb hrest
        refine ⟨r, (bm, bp) :: c :: pre', post, ?_, ?_, ?_, ?_⟩
        · simp only [pickFold]
          rw [if_neg hc]
          exact hpick
        · rw [List.cons_append, List.cons_append, ← hrest]
        · intro y hy
          have hrb : r.1 < bm := by
            have := hpre p0 (List.mem_cons_self p0 pre')
            rw [← hb] at this
            exact this
          rcases List.mem_cons.mp hy with rfl | hy
          · exact hrb
          · rcases List.mem_cons.mp hy with rfl | hy
            · exact lt_of_lt_of_le hrb hbc
            · exact hpre y (List.mem_cons_of_mem p0 hy)
        · intro y hy
          have hrb : r.1 ≤ bm := hmin (bm, bp) (List.mem_cons_self _ _)
          rcases List.mem_cons.mp hy with rfl | hy
          · exact hrb
          · rcases List.mem_cons.mp hy with rfl | hy
            · exact le_trans hrb hbc
            · exact hmin y (List.mem_cons_of_mem _ hy)

theorem firstMin_unique :
    ∀ (pre : List (ℤ × List ℚ)) (cs pre' post post' : List (ℤ × List ℚ))
      (x r : ℤ × List ℚ),
      cs = pre ++ x :: post → cs = pre' ++ r :: post' →
      (∀ y ∈ pre, x.1 < y.1) → (∀ y ∈ cs, x.1 ≤ y.1) →
      (∀ y ∈ pre', r.1 < y.1) → (∀ y ∈ cs, r.1 ≤ y.1) → x = r := by
  intro pre
  induction pre with
  | nil =>
    intro cs pre' post post' x r h1 h2 hx1 hx2 hr1 hr2
    rw [List.nil_append] at h1
    subst h1
    cases pre' with
    | nil =>
      rw [List.nil_append] at h2
      exact (List.cons_eq_cons.mp h2).1
    | cons z pre'' =>
      rw [List.cons_append] at h2
      injection h2 with hxz htl
      have hrmem : r ∈ x :: post := by
        apply List.mem_cons_of_mem x
        rw [htl]
        exact List.mem_append_right pre'' (List.mem_cons_self r post')
      have h3 : x.1 ≤ r.1 := hx2 r hrmem
      have h4 : r.1 < z.1 := hr1 z (List.mem_cons_self z pre'')
      rw [← hxz] at h4
      exact ((lt_irrefl x.1 (lt_of_le_of_lt h3 h4)).elim)
  | cons p pre1 ih =>
    intro cs pre' post post' x r h1 h2 hx1 hx2 hr1 hr2
    subst h1
    cases pre' with
    | nil =>
      rw [List.nil_append] at h2
      have hxmem : x ∈ p :: (pre1 ++ x :: post) :=
        List.mem_cons_of_mem p (List.mem_append_right pre1 (List.mem_cons_self x post))
      have h3 : r.1 ≤ x.1 := hr2 x hxmem
      have h4 : x.1 < p.1 := hx1 p (List.mem_cons_self p pre1)
      have hp : p = r := (List.cons_eq_cons.mp h2).1
      rw [hp] at h4
      exact ((lt_irrefl x.1 (lt_of_lt_of_le h4 h3)).elim)
    | cons z pre'' =>
      rw [List.cons_append] at h2
      injection h2 with hp htl
      exact ih (pre1 ++ x :: post) pre'' post post' x r rfl htl
        (fun y hy => hx1 y (List.mem_cons_of_mem p hy))
        (fun y hy => hx2 y (List.mem_cons_of_mem p hy))
        (fun y hy => hr1 y (List.mem_cons_of_mem z hy))
        (fun y hy => hr2 y (List.mem_cons_of_mem p hy))

/-- C9: with a parseable target date, (i) the locator returns None exactly
when no point's date parses; (ii) if `x` is the first candidate achieving
the minimal absolute-seconds difference (strictly smaller than everything
before it, no larger than everything), the locator returns `x`'s position —
closest wins, ties go to the first in scan order; (iii) a single-point list
with a parseable date returns that point's position regardless of
distance. -/
theorem c9_find_position (l : List TrajPoint) (target : List Char) (td : ℤ)
    (ht : pyFromIso target = some td) :
    (findPositionAtDate l target = .ok none ↔ fpCands td l = []) ∧
      (∀ x pre post, fpCands td l = pre ++ x :: post →
        (∀ y ∈ pre, x.1 < y.1) → (∀ y ∈ fpCands td l, x.1 ≤ y.1) →
        findPositionAtDate l target = .ok (some x.2)) ∧
      (∀ p d0, dateDiffSec td p = some d0 →
        findPositionAtDate [p] target = .ok (some p.position)) := by
  have hfind : findPositionAtDate l target =
      .ok ((pickFold none (fpCands td l)).map Prod.snd) := by
    simp only [findPositionAtDate, ht]
    rw [fpLoop_eq_pickFold]
  refine ⟨?_, ?_, ?_⟩
  · rw [hfind]
    constructor
    · intro h
      injection h with h1
      cases hcs : fpCands td l with
      | nil => rfl
      | cons c cs' =>
        rw [hcs] at h1
        obtain ⟨r, pre0, post0, hpick, _, _, _⟩ := pickFold_spec cs' c
        have : pickFold none (c :: cs') = some r := by
          rw [show pickFold none (c :: cs') = pickFold (some c) cs' from rfl, hpick]
        rw [this] at h1
        simp at h1
    · intro h
      rw [h]
      rfl
  · intro x pre post hsplitEq hpre hmin
    rw [hfind]
    cases hcs : fpCands td l with
    | nil =>
      rw [hcs] at hsplitEq
      cases pre <;> simp at hsplitEq
    | cons c cs' =>
      obtain ⟨r, pre0, post0, hpick, hsplit0, hpre0, hmin0⟩ := pickFold_spec cs' c
      have hxr : x = r := by
        refine firstMin_unique pre (c :: cs') pre0 post post0 x r ?_ hsplit0 hpre ?_ hpre0 hmin0
        · rw [← hcs]
          exact hsplitEq
        · rw [← hcs]
          exact hmin
      rw [show pickFold none (c :: cs') = pickFold (some c) cs' from rfl, hpick, hxr]
      rfl
  · intro p d0 hd
    simp only [findPositionAtDate, ht]
    have : fpLoop td [p] none = some (d0, p.position) := by
      simp only [fpLoop, hd]
    rw [this]
    rfl

/-- C9 witness: single-point series `2025-07-01`, target `2025-07-10`
(9 days = 777600 seconds away) still returns that point's position. -/
theorem c9_find_position_witness :
    findPositionAtDate [ptJul1] ("2025-07-10".data) = .ok (some ptJul1.position) :=
  (c9_find_position [ptJul1] ("2025-07-10".data) 20279 (by decide)).2.2 ptJul1 777600 (by decide)

end TrajSpec
